import Mathlib

/-!
Shallow embedding of the category-management core of the
Multi-Level-Category-Management-API repository.

The sole entity is a category record: an id, a name, an optional parent
reference and a two-valued status (`src/models/Category.ts`).  Mongo
ObjectIds are modelled as `Nat`; the persistent category collection is
modelled as a `List Category` in insertion order, and each store-backed
handler becomes an explicit state-passing function on that list.

The repository holds two copies of the tree builder: the standalone
utility (`src/unnamed/part_000`, namespace `CategoryUtils` below) and the
inline copy in the category controller (namespace `CategoryController`
below).  Unbounded recursion in the source (descendant listing, status
cascade, subtree depth) is embedded with an explicit fuel argument; the
theorems show the results are fuel-independent once the fuel exceeds the
subtree depth, which is the embedding of termination on acyclic input.
-/

/-- Status enumeration of a category: `'active' | 'inactive'`
(`src/models/Category.ts`). -/
inductive Status where
  | active
  | inactive
deriving DecidableEq

/-- A category record as stored in the category collection
(`src/models/Category.ts`): `_id` (modelled as `Nat`), `name`, optional
`parent` reference and `status`. -/
structure Category where
  id : Nat
  name : String
  parent : Option Nat
  status : Status
deriving DecidableEq

/-- The ids occurring in a flat list of category records; these are the
keys of the `categoryMap` both tree builders construct in their first
pass. -/
def keys (categories : List Category) : List Nat :=
  categories.map Category.id

/-- The records whose `parent` field equals the given id, in input order:
the result of `categories.filter(cat => cat.parent && cat.parent.toString()
=== categoryId)` and of the store query `Category.find({ parent: id })`. -/
def childrenOf (categories : List Category) (categoryId : Nat) : List Category :=
  categories.filter (fun c => c.parent = some categoryId)

/-- Boolean form of acyclicity of the parent graph: `rank` is a witness
assignment of ranks to ids under which every stored parent reference
strictly lowers the rank.  A finite parent graph is acyclic exactly when
such a rank function exists. -/
def acyclicB (categories : List Category) (rank : Nat → Nat) : Bool :=
  categories.all (fun c =>
    match c.parent with
    | some p => decide (rank p < rank c.id)
    | none => true)

/-- Acyclicity of the parent graph, witnessed by a rank function. -/
abbrev Acyclic (categories : List Category) (rank : Nat → Nat) : Prop :=
  acyclicB categories rank = true

/-- Number of records of strictly larger rank than the given id; the
termination measure of every recursion that walks down the parent graph. -/
def bnd (categories : List Category) (rank : Nat → Nat) (x : Nat) : Nat :=
  (categories.filter (fun c => rank x < rank c.id)).length

/-- The id and parent reference of a record: the part of the store state
that the status cascade never changes. -/
def shape (c : Category) : Nat × Option Nat := (c.id, c.parent)

/-- Two store states with identical ids and parent references in identical
order (they may differ in names and statuses). -/
def SameShape (st₁ st₂ : List Category) : Prop :=
  st₁.map shape = st₂.map shape

namespace CategoryUtils

/-- A node of the assembled category tree (`CategoryTreeNode` in
`src/unnamed/part_000`): id, name, status and the nested children. -/
inductive CategoryTreeNode where
  | mk (id : Nat) (name : String) (status : Status) (children : List CategoryTreeNode)

/-- The id stored in a tree node. -/
def treeId : CategoryTreeNode → Nat
  | .mk i _ _ _ => i

/-- The fully populated map node of one record after both builder passes:
its fields are copied from the record, and its `children` array ends up
holding, in input order, the map node of every record whose `parent`
resolves to this record's id.  The imperative `Map`-based construction is
embedded as this recursive reconstruction; `fuel` bounds the nesting
depth (any fuel exceeding the subtree depth yields the fixed point, see
the stability theorems). -/
def buildNode (categories : List Category) : Nat → Category → CategoryTreeNode
  | 0, c => .mk c.id c.name c.status []
  | fuel+1, c =>
    .mk c.id c.name c.status ((childrenOf categories c.id).map (buildNode categories fuel))

/-- Whether the utility tree builder pushes this record onto
`rootCategories`: either `parent` is unset, or the declared parent id is
absent from the category map (the tolerant dangling-parent branch of
`src/unnamed/part_000`). -/
def isRootRecord (categories : List Category) (c : Category) : Bool :=
  match c.parent with
  | none => true
  | some p => !(keys categories).contains p

/-- The utility tree builder `buildCategoryTree` of `src/unnamed/part_000`:
the root list holds, in input order, the map node of every record whose
parent is unset or dangling; nesting follows `buildNode`. -/
def buildCategoryTree (categories : List Category) : List CategoryTreeNode :=
  (categories.filter (fun c => isRootRecord categories c)).map
    (buildNode categories (categories.length + 1))

/-- The recursive descendant-id listing `getAllDescendantIds` of
`src/unnamed/part_000`: direct children are filtered from the flat list in
input order, and each child contributes its id followed by its own
recursively computed descendants.  `fuel` bounds the recursion depth. -/
def getAllDescendantIds (fuel : Nat) (categoryId : Nat) (categories : List Category) :
    List Nat :=
  match fuel with
  | 0 => []
  | fuel+1 =>
    (childrenOf categories categoryId).flatMap
      (fun child => child.id :: getAllDescendantIds fuel child.id categories)

/-- The descendant-id listing at the canonical always-adequate fuel
`length + 1`: on an acyclic store this is the value the unbounded source
recursion computes. -/
def descIds (categories : List Category) (categoryId : Nat) : List Nat :=
  getAllDescendantIds (categories.length + 1) categoryId categories

/-- Total number of nodes in a forest of tree nodes, each node counted
once. -/
def sizeForest : List CategoryTreeNode → Nat
  | [] => 0
  | .mk _ _ _ cs :: ts => 1 + sizeForest cs + sizeForest ts

/-- Depth-first preorder enumeration of the ids of a forest: each node's
id comes immediately before the ids of its own descendants, siblings in
list order. -/
def forestPreorderIds : List CategoryTreeNode → List Nat
  | [] => []
  | .mk i _ _ cs :: ts => i :: (forestPreorderIds cs ++ forestPreorderIds ts)

/-- Modelled from the spec: the depth of the subtree rooted at an id in the
parent graph — 0 for a record without children, otherwise one more than
the largest depth among its direct children.  `fuel` bounds the recursion;
`length + 1` is always adequate on an acyclic store. -/
def subtreeDepth (categories : List Category) : Nat → Nat → Nat
  | 0, _ => 0
  | fuel+1, x =>
    let cs := childrenOf categories x
    if cs.isEmpty then 0
    else 1 + cs.foldl (fun m c => max m (subtreeDepth categories fuel c.id)) 0

/-- The subtree depth at the canonical always-adequate fuel. -/
def depthBelow (categories : List Category) (categoryId : Nat) : Nat :=
  subtreeDepth categories (categories.length + 1) categoryId

end CategoryUtils

namespace CategoryController

/-- The category controller's inline copy of `buildCategoryTree`
(`src/controllers`, lines 74-103 of the concatenated controller file).
Its two passes match the utility builder except in the root rule: a
record is pushed onto `rootCategories` only when its `parent` is unset —
when `parent` is set but absent from the map, the record is pushed
nowhere.  Children attachment and node construction are identical, so the
embedding reuses `CategoryUtils.buildNode`. -/
def buildCategoryTree (categories : List Category) : List CategoryUtils.CategoryTreeNode :=
  (categories.filter (fun c => c.parent = none)).map
    (CategoryUtils.buildNode categories (categories.length + 1))

/-- The store-backed status cascade `updateDescendantStatus`: query the
current state for the direct children of `parentId`; if there are any,
bulk-update the status of exactly the records with those ids, then recurse
sequentially on each child id against the evolving state.  `fuel` bounds
the recursion depth of the unbounded source recursion. -/
def updateDescendantStatus (fuel : Nat) (parentId : Nat) (status : Status)
    (st : List Category) : List Category :=
  match fuel with
  | 0 => st
  | fuel+1 =>
    let children := childrenOf st parentId
    if 0 < children.length then
      let st' := st.map (fun c =>
        if children.any (fun child => child.id == c.id) then
          { c with status := status }
        else c)
      children.foldl (fun s child => updateDescendantStatus fuel child.id status s) st'
    else st

/-- The `updateCategory` handler: look up the category; on a miss answer
404 and leave the store unchanged.  Otherwise compute the saved name
(JavaScript `name || category.name`: an absent or empty name keeps the old
one), run the descendant cascade exactly when a status is supplied that
differs from the current one and equals `inactive`, and finally save the
fetched document (with new name and status) over the record with that id.
Returns the response status code and the resulting store. -/
def updateCategory (fuel : Nat) (id : Nat) (name? : Option String)
    (status? : Option Status) (st : List Category) : Nat × List Category :=
  match st.find? (fun c => c.id == id) with
  | none => (404, st)
  | some category =>
    let newName := match name? with
      | some n => if n = "" then category.name else n
      | none => category.name
    match status? with
    | some s =>
      if s ≠ category.status ∧ s = Status.inactive then
        let st₁ := updateDescendantStatus fuel id s st
        (200, st₁.map (fun c => if c.id == id then { category with name := newName, status := s } else c))
      else
        (200, st.map (fun c => if c.id == id then { category with name := newName, status := s } else c))
    | none =>
      (200, st.map (fun c => if c.id == id then { category with name := newName } else c))

/-- The `deleteCategory` handler: look up the category (404 on a miss),
remember its parent reference, query the direct children, bulk-update each
child's `parent` to the remembered reference (the reparenting step), and
finally delete the record with that id.  Returns the response status code
and the resulting store. -/
def deleteCategory (id : Nat) (st : List Category) : Nat × List Category :=
  match st.find? (fun c => c.id == id) with
  | none => (404, st)
  | some category =>
    let parentId := category.parent
    let subcategories := childrenOf st id
    let st₁ :=
      if 0 < subcategories.length then
        st.map (fun c =>
          if subcategories.any (fun sc => sc.id == c.id) then
            { c with parent := parentId }
          else c)
      else st
    (200, st₁.eraseP (fun c => c.id == id))

/-- The `createCategory` handler: when a parent id is supplied but no such
category exists, the handler sends a 400 response and — the validation
branch has no `return` — falls through, constructs the new category (with
the supplied parent reference and status defaulting to `active`) and saves
it, then attempts a 201 response.  The first component lists every
response status code the handler reaches, in order; the second is the
resulting store with the freshly generated id `newId`. -/
def createCategory (newId : Nat) (name : String) (parent? : Option Nat)
    (status? : Option Status) (st : List Category) : List Nat × List Category :=
  let responses :=
    match parent? with
    | some p => if (st.find? (fun c => c.id == p)).isNone then [400] else []
    | none => []
  let category : Category :=
    { id := newId, name := name, parent := parent?, status := status?.getD Status.active }
  (responses ++ [201], st ++ [category])

end CategoryController

/-! ### Basic facts about children, acyclicity and the termination measure -/

theorem mem_childrenOf {categories : List Category} {x : Nat} {c : Category} :
    c ∈ childrenOf categories x ↔ c ∈ categories ∧ c.parent = some x := by
  simp [childrenOf, List.mem_filter]

theorem acyclic_parent_rank {categories : List Category} {rank : Nat → Nat}
    (h : Acyclic categories rank) {c : Category} (hc : c ∈ categories) {p : Nat}
    (hp : c.parent = some p) : rank p < rank c.id := by
  have hb := List.all_eq_true.mp h c hc
  rw [hp] at hb
  simpa using hb

theorem length_filter_eq_countP {α : Type} (l : List α) (p : α → Bool) :
    (l.filter p).length = l.countP p := by
  induction l with
  | nil => rfl
  | cons a t ih => by_cases h : p a <;> simp [List.filter_cons, List.countP_cons, h, ih]

theorem countP_lt_countP {α : Type} {p q : α → Bool} :
    ∀ {l : List α}, (∀ a ∈ l, p a = true → q a = true) →
      ∀ a₀ ∈ l, q a₀ = true → p a₀ = false → l.countP p < l.countP q := by
  intro l
  induction l with
  | nil => intro _ a₀ h0; cases h0
  | cons a t ih =>
    intro hpq a₀ ha₀ hq0 hp0
    rcases List.mem_cons.mp ha₀ with h | h
    · subst h
      have hmono : t.countP p ≤ t.countP q :=
        List.countP_mono_left (fun b hb => hpq b (List.mem_cons_of_mem _ hb))
      simp [List.countP_cons, hq0, hp0]
      omega
    · have hlt : t.countP p < t.countP q :=
        ih (fun b hb => hpq b (List.mem_cons_of_mem _ hb)) a₀ h hq0 hp0
      have hle : (if p a then 1 else 0) ≤ (if q a then 1 else 0) := by
        by_cases hpa : p a = true
        · have := hpq a (List.mem_cons_self a t) hpa
          simp [hpa, this]
        · simp [hpa]
      simp only [List.countP_cons]
      omega

theorem bnd_le_length (categories : List Category) (rank : Nat → Nat) (x : Nat) :
    bnd categories rank x ≤ categories.length :=
  List.length_filter_le _ _

theorem bnd_child_lt {categories : List Category} {rank : Nat → Nat}
    (hr : Acyclic categories rank) {c : Category} {x : Nat}
    (hc : c ∈ categories) (hp : c.parent = some x) :
    bnd categories rank c.id < bnd categories rank x := by
  have hcx : rank x < rank c.id := acyclic_parent_rank hr hc hp
  unfold bnd
  rw [length_filter_eq_countP, length_filter_eq_countP]
  refine countP_lt_countP ?_ c hc ?_ ?_
  · intro d _ hd
    have hdd : rank c.id < rank d.id := by simpa using hd
    simp
    omega
  · simp [hcx]
  · simp

theorem bnd_child_lt' {categories : List Category} {rank : Nat → Nat}
    (hr : Acyclic categories rank) {c : Category} {x : Nat}
    (hc : c ∈ childrenOf categories x) :
    bnd categories rank c.id < bnd categories rank x :=
  bnd_child_lt hr (mem_childrenOf.mp hc).1 (mem_childrenOf.mp hc).2

theorem flatMap_congr {α β : Type} {l : List α} {f g : α → List β}
    (h : ∀ a ∈ l, f a = g a) : l.flatMap f = l.flatMap g := by
  induction l with
  | nil => rfl
  | cons a t ih =>
    simp only [List.flatMap_cons]
    rw [h a (List.mem_cons_self a t), ih (fun b hb => h b (List.mem_cons_of_mem _ hb))]

namespace CategoryUtils

/-! ### Stability of the descendant listing: the recursion is total on
acyclic input, and any adequate fuel computes the same listing -/

theorem getAllDescendantIds_stab {categories : List Category} {rank : Nat → Nat}
    (hr : Acyclic categories rank) :
    ∀ (n : Nat) {x fuel₁ fuel₂ : Nat}, bnd categories rank x < n →
      bnd categories rank x < fuel₁ → bnd categories rank x < fuel₂ →
      getAllDescendantIds fuel₁ x categories = getAllDescendantIds fuel₂ x categories := by
  intro n
  induction n with
  | zero => intro x fuel₁ fuel₂ h0; omega
  | succ n ih =>
    intro x fuel₁ fuel₂ hn h₁ h₂
    match fuel₁, fuel₂ with
    | g₁+1, g₂+1 =>
      simp only [getAllDescendantIds]
      apply flatMap_congr
      intro c hc
      have hb : bnd categories rank c.id < bnd categories rank x := bnd_child_lt' hr hc
      exact congrArg (c.id :: ·) (@ih c.id g₁ g₂ (by omega) (by omega) (by omega))

theorem getAllDescendantIds_eq_descIds {categories : List Category} {rank : Nat → Nat}
    (hr : Acyclic categories rank) {x fuel : Nat}
    (hf : bnd categories rank x < fuel) :
    getAllDescendantIds fuel x categories = descIds categories x := by
  have hlen : bnd categories rank x < categories.length + 1 :=
    Nat.lt_succ_of_le (bnd_le_length categories rank x)
  exact getAllDescendantIds_stab hr (bnd categories rank x + 1) (Nat.lt_succ_self _) hf hlen

theorem rank_lt_of_mem_desc {categories : List Category} {rank : Nat → Nat}
    (hr : Acyclic categories rank) :
    ∀ {fuel x k : Nat}, k ∈ getAllDescendantIds fuel x categories → rank x < rank k := by
  intro fuel
  induction fuel with
  | zero => intro x k hk; cases hk
  | succ fuel ih =>
    intro x k hk
    simp only [getAllDescendantIds, List.mem_flatMap] at hk
    obtain ⟨c, hc, hk⟩ := hk
    have hcx : rank x < rank c.id :=
      acyclic_parent_rank hr (mem_childrenOf.mp hc).1 (mem_childrenOf.mp hc).2
    rcases List.mem_cons.mp hk with h | h
    · rw [h]
      exact hcx
    · have := ih h
      omega

end CategoryUtils

namespace CategoryUtils

/-! ### The descendant listing is the depth-first preorder of the built subtree -/

theorem buildNode_zero (categories : List Category) (c : Category) :
    buildNode categories 0 c = .mk c.id c.name c.status [] := rfl

theorem buildNode_succ (categories : List Category) (fuel : Nat) (c : Category) :
    buildNode categories (fuel + 1) c
      = .mk c.id c.name c.status ((childrenOf categories c.id).map (buildNode categories fuel)) :=
  rfl

theorem forestPreorderIds_map_buildNode (categories : List Category) :
    ∀ (fuel : Nat) (l : List Category),
      forestPreorderIds (l.map (buildNode categories fuel))
        = l.flatMap (fun c => c.id :: getAllDescendantIds fuel c.id categories) := by
  intro fuel
  induction fuel with
  | zero =>
    intro l
    induction l with
    | nil => simp [forestPreorderIds]
    | cons c cs ihl =>
      rw [List.map_cons, buildNode_zero]
      simp only [forestPreorderIds, List.flatMap_cons]
      rw [ihl]
      simp [getAllDescendantIds]
  | succ fuel ih =>
    intro l
    induction l with
    | nil => simp [forestPreorderIds]
    | cons c cs ihl =>
      rw [List.map_cons, buildNode_succ]
      simp only [forestPreorderIds, List.flatMap_cons]
      rw [ih, ihl]
      simp [getAllDescendantIds]

/-- Claim C7: for every category id and flat category set, the recursive
descendant-id listing `getAllDescendantIds` enumerates exactly the
depth-first preorder of the subtree forest the tree builder constructs
below that id: each direct child's id appears immediately before that
child's own descendants, and children at every level follow input order
(the order `childrenOf` preserves).  This holds at every fuel, hence in
particular for the acyclic inputs of the claim. -/
theorem getAllDescendantIds_preorder (categories : List Category) (categoryId : Nat)
    (fuel : Nat) :
    getAllDescendantIds (fuel + 1) categoryId categories
      = forestPreorderIds
          ((childrenOf categories categoryId).map (buildNode categories fuel)) := by
  rw [forestPreorderIds_map_buildNode]
  simp only [getAllDescendantIds]

theorem length_forestPreorderIds :
    ∀ ts : List CategoryTreeNode, (forestPreorderIds ts).length = sizeForest ts := by
  intro ts
  induction ts using sizeForest.induct with
  | case1 => simp [forestPreorderIds, sizeForest]
  | case2 i nm stt cs ts ih1 ih2 =>
    simp [forestPreorderIds, sizeForest, ih1, ih2]
    omega

theorem sizeForest_map_buildNode (categories : List Category) (fuel : Nat)
    (l : List Category) :
    sizeForest (l.map (buildNode categories fuel))
      = (l.map (fun c => 1 + (getAllDescendantIds fuel c.id categories).length)).sum := by
  rw [← length_forestPreorderIds, forestPreorderIds_map_buildNode, List.length_flatMap]
  exact congrArg List.sum (List.map_congr_left (fun a _ => by simp [Nat.add_comm]))

end CategoryUtils

/-! ### Summation helpers for the node-count argument -/

theorem sum_map_zero_fn {α : Type} (l : List α) : (l.map (fun _ => (0 : Nat))).sum = 0 := by
  induction l with
  | nil => rfl
  | cons a t ih => simp [ih]

theorem sum_map_add_fn {α : Type} (l : List α) (f g : α → Nat) :
    (l.map (fun a => f a + g a)).sum = (l.map f).sum + (l.map g).sum := by
  induction l with
  | nil => rfl
  | cons a t ih => simp [ih]; omega

theorem sum_map_one_add {α : Type} (l : List α) (f : α → Nat) :
    (l.map (fun a => 1 + f a)).sum = l.length + (l.map f).sum := by
  induction l with
  | nil => rfl
  | cons a t ih => simp [ih]; omega

theorem sum_map_filter_eq_sum_map_ite {α : Type} (l : List α) (p : α → Bool) (w : α → Nat) :
    ((l.filter p).map w).sum = (l.map (fun a => if p a then w a else 0)).sum := by
  induction l with
  | nil => rfl
  | cons a t ih =>
    by_cases h : p a <;> simp [List.filter_cons, h, ih]

theorem sum_map_swap {α β : Type} (l₁ : List α) (l₂ : List β) (g : α → β → Nat) :
    (l₁.map (fun a => (l₂.map (g a)).sum)).sum
      = (l₂.map (fun b => (l₁.map (fun a => g a b)).sum)).sum := by
  induction l₁ with
  | nil => simp [sum_map_zero_fn]
  | cons a t ih =>
    simp only [List.map_cons, List.sum_cons, ih]
    rw [← sum_map_add_fn]

theorem sum_map_ite_count {α : Type} (l : List α) (p : α → Bool) (v : Nat) :
    (l.map (fun a => if p a then v else 0)).sum = v * l.countP p := by
  induction l with
  | nil => simp
  | cons a t ih =>
    by_cases h : p a <;> simp [List.countP_cons, h, ih, Nat.mul_succ] <;> omega

theorem countP_field_eq_zero {α : Type} (l : List α) (f : α → Nat) (p : Nat)
    (hp : p ∉ l.map f) : l.countP (fun a => f a = p) = 0 := by
  induction l with
  | nil => rfl
  | cons a t ih =>
    simp only [List.map_cons, List.mem_cons] at hp
    push_neg at hp
    have h1 : (f a = p) = False := by simp [Ne.symm hp.1]
    simp [List.countP_cons, ih hp.2, h1]

theorem countP_field_eq_one {α : Type} (l : List α) (f : α → Nat) (p : Nat)
    (hnd : (l.map f).Nodup) (hp : p ∈ l.map f) : l.countP (fun a => f a = p) = 1 := by
  induction l with
  | nil => cases hp
  | cons a t ih =>
    simp only [List.map_cons, List.nodup_cons] at hnd
    rcases List.mem_cons.mp hp with h | h
    · have h0 : t.countP (fun b => f b = p) = 0 := by
        apply countP_field_eq_zero
        rw [h]
        exact hnd.1
      simp [List.countP_cons, h0, h.symm]
    · have h1 : t.countP (fun b => f b = p) = 1 := ih hnd.2 h
      have hne : (f a = p) = False := by
        have : f a ≠ p := by
          intro he
          exact hnd.1 (he ▸ h)
        simp [this]
      simp [List.countP_cons, h1, hne]

theorem sum_map_filter_split {α : Type} (l : List α) (p : α → Bool) (w : α → Nat) :
    (l.map w).sum = ((l.filter p).map w).sum + ((l.filter (fun a => !p a)).map w).sum := by
  induction l with
  | nil => rfl
  | cons a t ih =>
    by_cases h : p a <;> simp [List.filter_cons, h, ih] <;> omega


theorem sum_map_filterP_eq {α : Type} (l : List α) (P : α → Prop) [DecidablePred P]
    (w : α → Nat) :
    ((l.filter (fun a => decide (P a))).map w).sum
      = (l.map (fun a => if P a then w a else 0)).sum := by
  rw [sum_map_filter_eq_sum_map_ite]
  apply congrArg List.sum
  apply List.map_congr_left
  intro a _
  by_cases h : P a <;> simp [h]

theorem sum_map_iteP_count {α : Type} (l : List α) (P : α → Prop) [DecidablePred P]
    (v : Nat) :
    (l.map (fun a => if P a then v else 0)).sum = v * l.countP (fun a => decide (P a)) := by
  rw [← sum_map_ite_count]
  apply congrArg List.sum
  apply List.map_congr_left
  intro a _
  by_cases h : P a <;> simp [h]

namespace CategoryUtils

/-! ### Node-count of the utility tree builder (partition property) -/

theorem descIds_length_rec {categories : List Category} {rank : Nat → Nat}
    (hr : Acyclic categories rank) (x : Nat) :
    (descIds categories x).length
      = ((childrenOf categories x).map
          (fun c => 1 + (descIds categories c.id).length)).sum := by
  conv_lhs =>
    rw [show descIds categories x
        = (childrenOf categories x).flatMap
            (fun child => child.id :: getAllDescendantIds categories.length child.id categories)
      from rfl]
  rw [List.length_flatMap]
  apply congrArg List.sum
  apply List.map_congr_left
  intro c hc
  have hb : bnd categories rank c.id < bnd categories rank x := bnd_child_lt' hr hc
  have hlen : bnd categories rank x ≤ categories.length := bnd_le_length categories rank x
  simp only [Function.comp_apply, List.length_cons]
  rw [getAllDescendantIds_eq_descIds hr
    (show bnd categories rank c.id < categories.length by omega)]
  omega

theorem isRootRecord_parent_none {categories : List Category} {c : Category}
    (h : c.parent = none) : isRootRecord categories c = true := by
  simp [isRootRecord, h]

theorem isRootRecord_dangling {categories : List Category} {c : Category} {p : Nat}
    (h : c.parent = some p) (hd : p ∉ keys categories) : isRootRecord categories c = true := by
  simp [isRootRecord, h, hd]

theorem isRootRecord_resolvable {categories : List Category} {c : Category} {p : Nat}
    (h : c.parent = some p) (hd : p ∈ keys categories) : isRootRecord categories c = false := by
  simp [isRootRecord, h, hd]

/-- Claim C1 (amended, utility builder): on a flat input with pairwise
distinct ids and an acyclic parent graph, the utility tree builder's
output forest holds exactly one node per input record: the total node
count equals the input length, so no record is dropped. -/
theorem buildCategoryTree_node_count (categories : List Category) (rank : Nat → Nat)
    (hnd : (keys categories).Nodup) (hr : Acyclic categories rank) :
    sizeForest (buildCategoryTree categories) = categories.length := by
  classical
  have h1 : sizeForest (buildCategoryTree categories)
      = ((categories.filter (fun c => isRootRecord categories c)).map
          (fun c => 1 + (descIds categories c.id).length)).sum := by
    unfold buildCategoryTree
    rw [sizeForest_map_buildNode]
    rfl
  have h2 : (categories.map (fun c => 1 + (descIds categories c.id).length)).sum
      = categories.length
        + (categories.map (fun d =>
            ((childrenOf categories d.id).map
              (fun c => 1 + (descIds categories c.id).length)).sum)).sum := by
    rw [sum_map_one_add]
    congr 1
    apply congrArg List.sum
    exact List.map_congr_left (fun d _ => descIds_length_rec hr d.id)
  have h3 : (categories.map (fun d =>
        ((childrenOf categories d.id).map
          (fun c => 1 + (descIds categories c.id).length)).sum)).sum
      = ((categories.filter (fun c => !isRootRecord categories c)).map
          (fun c => 1 + (descIds categories c.id).length)).sum := by
    have e1 : (categories.map (fun d =>
          ((childrenOf categories d.id).map
            (fun c => 1 + (descIds categories c.id).length)).sum)).sum
        = (categories.map (fun d =>
            (categories.map (fun c =>
              if c.parent = some d.id then
                1 + (descIds categories c.id).length
              else 0)).sum)).sum := by
      apply congrArg List.sum
      apply List.map_congr_left
      intro d _
      unfold childrenOf
      exact sum_map_filterP_eq categories (fun c => c.parent = some d.id) _
    rw [e1, sum_map_swap categories categories
      (fun d c => if c.parent = some d.id then 1 + (descIds categories c.id).length else 0)]
    have e2 : ∀ c ∈ categories,
        (categories.map (fun d =>
          if c.parent = some d.id then 1 + (descIds categories c.id).length else 0)).sum
        = (if !isRootRecord categories c then 1 + (descIds categories c.id).length else 0) := by
      intro c _
      rw [sum_map_iteP_count categories (fun d => c.parent = some d.id)
        (1 + (descIds categories c.id).length)]
      cases hcp : c.parent with
      | none =>
        have h0 : categories.countP (fun d => decide ((none : Option Nat) = some d.id)) = 0 :=
          List.countP_eq_zero.mpr (fun d _ => by simp)
        rw [h0, isRootRecord_parent_none hcp]
        simp
      | some p =>
        by_cases hpk : p ∈ keys categories
        · have hc1 : categories.countP (fun d => decide (some p = some d.id)) = 1 := by
            have hcg : categories.countP (fun d => decide (some p = some d.id))
                = categories.countP (fun d => decide (d.id = p)) :=
              List.countP_congr (fun d _ => by simp [eq_comm])
            rw [hcg]
            exact countP_field_eq_one categories Category.id p hnd hpk
          rw [hc1, isRootRecord_resolvable hcp hpk]
          simp
        · have hc0 : categories.countP (fun d => decide (some p = some d.id)) = 0 := by
            apply List.countP_eq_zero.mpr
            intro d hd
            simp only [decide_eq_true_eq, Option.some.injEq]
            intro he
            exact hpk (he ▸ List.mem_map_of_mem Category.id hd)
          rw [hc0, isRootRecord_dangling hcp hpk]
          simp
    calc (categories.map (fun c =>
            (categories.map (fun d =>
              if c.parent = some d.id then
                1 + (descIds categories c.id).length
              else 0)).sum)).sum
        = (categories.map (fun c =>
            if !isRootRecord categories c then
              1 + (descIds categories c.id).length
            else 0)).sum :=
          congrArg List.sum (List.map_congr_left e2)
      _ = ((categories.filter (fun c => !isRootRecord categories c)).map
            (fun c => 1 + (descIds categories c.id).length)).sum :=
          (sum_map_filter_eq_sum_map_ite categories _ _).symm
  have h4 := sum_map_filter_split categories (fun c => isRootRecord categories c)
    (fun c => 1 + (descIds categories c.id).length)
  omega

end CategoryUtils

namespace CategoryUtils

/-- Claim C2 (amended, utility builder): a record whose `parent` is set
but does not occur among the input ids is pushed onto the utility
builder's root list — its id appears among the ids of the output roots
(tolerant-read policy). -/
theorem buildCategoryTree_dangling_root (categories : List Category) (c : Category) (p : Nat)
    (hc : c ∈ categories) (hp : c.parent = some p) (hd : p ∉ keys categories) :
    c.id ∈ (buildCategoryTree categories).map treeId := by
  have hroot : isRootRecord categories c = true := isRootRecord_dangling hp hd
  have hcf : c ∈ categories.filter (fun c => isRootRecord categories c) :=
    List.mem_filter.mpr ⟨hc, hroot⟩
  unfold buildCategoryTree
  rw [List.map_map]
  have hid : (treeId ∘ buildNode categories (categories.length + 1)) c = c.id := rfl
  exact hid ▸ List.mem_map_of_mem _ hcf

end CategoryUtils

/-- Claim C1, counterexample against the controller's inline tree builder:
a single record with a set but unresolvable parent produces an empty
forest — node count 0 — although the input has length 1.  The record is
silently dropped. -/
theorem buildCategoryTree_node_count_cex :
    CategoryUtils.sizeForest
        (CategoryController.buildCategoryTree
          [⟨1, "A", some 99, Status.active⟩])
      ≠ ([⟨1, "A", some 99, Status.active⟩] : List Category).length := by
  simp [CategoryController.buildCategoryTree, CategoryUtils.sizeForest]

/-- Claim C1, witness: on a concrete acyclic three-record store (one of
them with a dangling parent reference) the utility builder's forest holds
exactly three nodes. -/
theorem buildCategoryTree_node_count_witness :
    CategoryUtils.sizeForest
        (CategoryUtils.buildCategoryTree
          [⟨1, "A", none, Status.active⟩, ⟨2, "B", some 1, Status.active⟩,
           ⟨3, "C", some 0, Status.active⟩])
      = ([⟨1, "A", none, Status.active⟩, ⟨2, "B", some 1, Status.active⟩,
          ⟨3, "C", some 0, Status.active⟩] : List Category).length :=
  CategoryUtils.buildCategoryTree_node_count _ (fun n => n) (by decide) (by decide)

/-- Claim C2, counterexample against the controller's inline tree builder:
the dangling-parent record's id does not appear among the output roots —
the whole output is empty, the record is dropped rather than surfaced as a
root. -/
theorem buildCategoryTree_dangling_root_cex :
    ¬ (1 ∈ (CategoryController.buildCategoryTree
        [⟨1, "A", some 99, Status.active⟩]).map CategoryUtils.treeId) := by
  decide

/-- Claim C2, witness: the concrete dangling record with id 1 appears as a
root of the utility builder's output. -/
theorem buildCategoryTree_dangling_root_witness :
    1 ∈ (CategoryUtils.buildCategoryTree
        [⟨1, "A", some 99, Status.active⟩]).map CategoryUtils.treeId :=
  CategoryUtils.buildCategoryTree_dangling_root _ ⟨1, "A", some 99, Status.active⟩ 99
    (by decide) rfl (by decide)

/-! ### No duplicates in the descendant listing -/

theorem nodup_map_inj {α : Type} {f : α → Nat} :
    ∀ {l : List α}, (l.map f).Nodup → ∀ {a b : α}, a ∈ l → b ∈ l → f a = f b → a = b := by
  intro l
  induction l with
  | nil => intro _ a b ha; cases ha
  | cons c t ih =>
    intro hnd a b ha hb hf
    simp only [List.map_cons, List.nodup_cons] at hnd
    rcases List.mem_cons.mp ha with h1 | h1 <;> rcases List.mem_cons.mp hb with h2 | h2
    · rw [h1, h2]
    · subst h1
      exfalso
      apply hnd.1
      rw [hf]
      exact List.mem_map_of_mem f h2
    · subst h2
      exfalso
      apply hnd.1
      rw [← hf]
      exact List.mem_map_of_mem f h1
    · exact ih hnd.2 h1 h2 hf

namespace CategoryUtils

theorem self_not_mem_desc {categories : List Category} {rank : Nat → Nat}
    (hr : Acyclic categories rank) (fuel x : Nat) :
    x ∉ getAllDescendantIds fuel x categories := by
  intro h
  have := rank_lt_of_mem_desc hr h
  omega

theorem desc_last_step {categories : List Category} :
    ∀ {fuel x k : Nat}, k ∈ getAllDescendantIds fuel x categories →
      ∃ y, (y = x ∨ y ∈ getAllDescendantIds fuel x categories) ∧
        ∃ c ∈ categories, c.id = k ∧ c.parent = some y := by
  intro fuel
  induction fuel with
  | zero => intro x k h; cases h
  | succ fuel ih =>
    intro x k hk
    simp only [getAllDescendantIds, List.mem_flatMap] at hk
    obtain ⟨c, hc, hk⟩ := hk
    have hcm := mem_childrenOf.mp hc
    rcases List.mem_cons.mp hk with h | h
    · exact ⟨x, Or.inl rfl, c, hcm.1, h.symm, hcm.2⟩
    · obtain ⟨y, hy, c', hc', hid, hpar⟩ := ih h
      refine ⟨y, Or.inr ?_, c', hc', hid, hpar⟩
      simp only [getAllDescendantIds, List.mem_flatMap]
      rcases hy with h1 | h1
      · exact ⟨c, hc, h1 ▸ List.mem_cons_self _ _⟩
      · exact ⟨c, hc, List.mem_cons_of_mem _ h1⟩

theorem desc_blocks_disjoint {categories : List Category} {rank : Nat → Nat}
    (hnd : (keys categories).Nodup) (hr : Acyclic categories rank) :
    ∀ (n k : Nat), rank k < n → ∀ (fuel x : Nat) (c₁ c₂ : Category),
      c₁ ∈ categories → c₂ ∈ categories → c₁.parent = some x → c₂.parent = some x →
      c₁.id ≠ c₂.id →
      k ∈ c₁.id :: getAllDescendantIds fuel c₁.id categories →
      k ∈ c₂.id :: getAllDescendantIds fuel c₂.id categories → False := by
  intro n
  induction n with
  | zero => intro k hk; omega
  | succ n ih =>
    intro k hk fuel x c₁ c₂ h1 h2 hp1 hp2 hne hk1 hk2
    rcases List.mem_cons.mp hk1 with e1 | e1 <;> rcases List.mem_cons.mp hk2 with e2 | e2
    · exact hne (by rw [← e1, ← e2])
    · obtain ⟨y, hy, c, hcmem, hcid, hcpar⟩ := desc_last_step e2
      have hceq : c = c₁ := nodup_map_inj hnd hcmem h1 (by rw [hcid, e1])
      have hyx : y = x := by
        rw [hceq, hp1] at hcpar
        injection hcpar.symm
      subst hyx
      have hrk1 := acyclic_parent_rank hr h2 hp2
      rcases hy with hxx | hxx
      · rw [hxx] at hrk1
        omega
      · have hrk2 := rank_lt_of_mem_desc hr hxx
        omega
    · obtain ⟨y, hy, c, hcmem, hcid, hcpar⟩ := desc_last_step e1
      have hceq : c = c₂ := nodup_map_inj hnd hcmem h2 (by rw [hcid, e2])
      have hyx : y = x := by
        rw [hceq, hp2] at hcpar
        injection hcpar.symm
      subst hyx
      have hrk1 := acyclic_parent_rank hr h1 hp1
      rcases hy with hxx | hxx
      · rw [hxx] at hrk1
        omega
      · have hrk2 := rank_lt_of_mem_desc hr hxx
        omega
    · obtain ⟨y₁, hy₁, d₁, hd₁, hd₁id, hd₁par⟩ := desc_last_step e1
      obtain ⟨y₂, hy₂, d₂, hd₂, hd₂id, hd₂par⟩ := desc_last_step e2
      have hdeq : d₁ = d₂ := nodup_map_inj hnd hd₁ hd₂ (by rw [hd₁id, hd₂id])
      have hyeq : y₂ = y₁ := by
        rw [← hdeq, hd₁par] at hd₂par
        injection hd₂par.symm
      have hrky : rank y₁ < rank k := by
        have hq := acyclic_parent_rank hr hd₁ hd₁par
        rw [hd₁id] at hq
        exact hq
      exact ih y₁ (by omega) fuel x c₁ c₂ h1 h2 hp1 hp2 hne
        (List.mem_cons.mpr hy₁) (List.mem_cons.mpr (hyeq ▸ hy₂))

theorem childrenOf_ids_nodup {categories : List Category}
    (hnd : (keys categories).Nodup) (x : Nat) :
    ((childrenOf categories x).map Category.id).Nodup := by
  have hsub : List.Sublist (childrenOf categories x) categories := List.filter_sublist categories
  exact List.Nodup.sublist (List.Sublist.map Category.id hsub) hnd

theorem nodup_desc_flatMap {categories : List Category} {rank : Nat → Nat}
    (hnd : (keys categories).Nodup) (hr : Acyclic categories rank) (x : Nat) (fuel : Nat)
    (ihfuel : ∀ y : Nat, (getAllDescendantIds fuel y categories).Nodup) :
    ∀ C : List Category, (∀ c ∈ C, c ∈ categories ∧ c.parent = some x) →
      (C.map Category.id).Nodup →
      (C.flatMap (fun c => c.id :: getAllDescendantIds fuel c.id categories)).Nodup := by
  intro C
  induction C with
  | nil => intro _ _; simp
  | cons c C ihC =>
    intro hmem hids
    simp only [List.map_cons, List.nodup_cons] at hids
    rw [List.flatMap_cons]
    rw [List.nodup_append]
    refine ⟨?_, ihC (fun d hd => hmem d (List.mem_cons_of_mem _ hd)) hids.2, ?_⟩
    · rw [List.nodup_cons]
      exact ⟨self_not_mem_desc hr fuel c.id, ihfuel c.id⟩
    · intro k hkc hkC
      simp only [List.mem_flatMap] at hkC
      obtain ⟨c', hc', hkc'⟩ := hkC
      have hcprop := hmem c (List.mem_cons_self _ _)
      have hcprop' := hmem c' (List.mem_cons_of_mem _ hc')
      have hne : c.id ≠ c'.id := by
        intro he
        exact hids.1 (he ▸ List.mem_map_of_mem Category.id hc')
      exact desc_blocks_disjoint hnd hr (rank k + 1) k (Nat.lt_succ_self _) fuel x c c'
        hcprop.1 hcprop'.1 hcprop.2 hcprop'.2 hne hkc hkc'

/-- Claim C10: on a flat category set with pairwise distinct ids and an
acyclic parent graph, the descendant-id listing for any id (at any
recursion bound) never contains the queried id itself and contains no
duplicate ids: each descendant is listed exactly once. -/
theorem getAllDescendantIds_nodup (categories : List Category) (rank : Nat → Nat)
    (fuel x : Nat) (hnd : (keys categories).Nodup) (hr : Acyclic categories rank) :
    x ∉ getAllDescendantIds fuel x categories
      ∧ (getAllDescendantIds fuel x categories).Nodup := by
  refine ⟨self_not_mem_desc hr fuel x, ?_⟩
  induction fuel generalizing x with
  | zero => simp [getAllDescendantIds]
  | succ fuel ih =>
    rw [show getAllDescendantIds (fuel + 1) x categories
        = (childrenOf categories x).flatMap
            (fun child => child.id :: getAllDescendantIds fuel child.id categories) from rfl]
    exact nodup_desc_flatMap hnd hr x fuel (fun y => ih y) (childrenOf categories x)
      (fun c hc => ⟨(mem_childrenOf.mp hc).1, (mem_childrenOf.mp hc).2⟩)
      (childrenOf_ids_nodup hnd x)

end CategoryUtils

/-- Claim C10, witness: a concrete acyclic four-record store where the
listing below id 1 is the duplicate-free `[2, 3, 4]` not containing 1. -/
theorem getAllDescendantIds_nodup_witness :
    ¬ (1 ∈ CategoryUtils.getAllDescendantIds 5 1
        [⟨1, "r", none, Status.active⟩, ⟨2, "m", some 1, Status.active⟩,
         ⟨3, "l", some 2, Status.active⟩, ⟨4, "s", some 1, Status.active⟩])
      ∧ (CategoryUtils.getAllDescendantIds 5 1
        [⟨1, "r", none, Status.active⟩, ⟨2, "m", some 1, Status.active⟩,
         ⟨3, "l", some 2, Status.active⟩, ⟨4, "s", some 1, Status.active⟩]).Nodup :=
  CategoryUtils.getAllDescendantIds_nodup _ (fun n => n) 5 1 (by decide) (by decide)

/-! ### Shape invariance: the status cascade never changes ids or parents -/

theorem shape_status_update (c : Category) (s : Status) :
    shape { c with status := s } = shape c := rfl

theorem sameShape_filter_parent :
    ∀ (st st' : List Category), st.map shape = st'.map shape →
      ∀ x, (childrenOf st x).map shape = (childrenOf st' x).map shape := by
  intro st
  induction st with
  | nil =>
    intro st' h x
    cases st' with
    | nil => rfl
    | cons b t' => simp at h
  | cons a t ih =>
    intro st' h x
    cases st' with
    | nil => simp at h
    | cons b t' =>
      simp only [List.map_cons, List.cons.injEq] at h
      obtain ⟨hab, ht⟩ := h
      have hpar : a.parent = b.parent := congrArg Prod.snd hab
      unfold childrenOf
      simp only [List.filter_cons]
      by_cases hpx : a.parent = some x
      · have hpx' : b.parent = some x := hpar ▸ hpx
        simp [hpx, hpx']
        exact ⟨hab, ih t' ht x⟩
      · have hpx' : ¬ b.parent = some x := hpar ▸ hpx
        simp [hpx, hpx']
        exact ih t' ht x

theorem map_id_of_map_shape {l l' : List Category} (h : l.map shape = l'.map shape) :
    l.map Category.id = l'.map Category.id := by
  have e : ∀ m : List Category, m.map Category.id = (m.map shape).map Prod.fst := by
    intro m
    rw [List.map_map]
    exact List.map_congr_left (fun c _ => rfl)
  rw [e l, e l', h]

namespace CategoryUtils

theorem desc_sameShape :
    ∀ (fuel : Nat) (st st' : List Category), st.map shape = st'.map shape →
      ∀ x, getAllDescendantIds fuel x st = getAllDescendantIds fuel x st' := by
  intro fuel
  induction fuel with
  | zero => intro st st' h x; rfl
  | succ fuel ih =>
    intro st st' h x
    simp only [getAllDescendantIds]
    have hcc := sameShape_filter_parent st st' h x
    have main : ∀ (C C' : List Category), C.map shape = C'.map shape →
        C.flatMap (fun child => child.id :: getAllDescendantIds fuel child.id st)
          = C'.flatMap (fun child => child.id :: getAllDescendantIds fuel child.id st') := by
      intro C
      induction C with
      | nil =>
        intro C' hC
        cases C' with
        | nil => rfl
        | cons b t => simp at hC
      | cons a t ihC =>
        intro C' hC
        cases C' with
        | nil => simp at hC
        | cons b t' =>
          simp only [List.map_cons, List.cons.injEq] at hC
          obtain ⟨hab, ht⟩ := hC
          have hid : a.id = b.id := congrArg Prod.fst hab
          rw [List.flatMap_cons, List.flatMap_cons, ihC t' ht]
          congr 1
          rw [hid, ih st st' h b.id]
    exact main _ _ hcc

end CategoryUtils

namespace CategoryController

theorem cascade_shape :
    ∀ (fuel x : Nat) (s : Status) (st : List Category),
      (updateDescendantStatus fuel x s st).map shape = st.map shape := by
  intro fuel
  induction fuel with
  | zero => intro x s st; rfl
  | succ fuel ih =>
    intro x s st
    simp only [updateDescendantStatus]
    by_cases h : 0 < (childrenOf st x).length
    · rw [if_pos h]
      have hfold : ∀ (C : List Category) (st₀ : List Category),
          ((C.foldl (fun s' child => updateDescendantStatus fuel child.id s s') st₀)).map shape
            = st₀.map shape := by
        intro C
        induction C with
        | nil => intro st₀; rfl
        | cons c C ihC =>
          intro st₀
          rw [List.foldl_cons, ihC, ih]
      rw [hfold]
      rw [List.map_map]
      apply List.map_congr_left
      intro c _
      simp only [Function.comp_apply]
      split <;> rfl
    · rw [if_neg h]

end CategoryController

namespace CategoryController

/-! ### Characterization of the status cascade: it sets the status of
exactly the transitive descendants of the triggering id -/

theorem cascade_char_gen {st : List Category} {rank : Nat → Nat} (hr : Acyclic st rank)
    (s : Status) :
    ∀ (n : Nat), ∀ (x fuel : Nat) (st' : List Category),
      bnd st rank x < n → bnd st rank x < fuel → st.map shape = st'.map shape →
      updateDescendantStatus fuel x s st'
        = st'.map (fun c =>
            if c.id ∈ CategoryUtils.descIds st x then { c with status := s } else c) := by
  intro n
  induction n with
  | zero => intro x fuel st' h0; omega
  | succ n ih =>
    intro x fuel st' hn hf hsh
    cases fuel with
    | zero => omega
    | succ g =>
      simp only [updateDescendantStatus]
      have hccsh : (childrenOf st x).map shape = (childrenOf st' x).map shape :=
        sameShape_filter_parent st st' hsh x
      have hccid : (childrenOf st' x).map Category.id = (childrenOf st x).map Category.id :=
        (map_id_of_map_shape hccsh).symm
      by_cases hC : 0 < (childrenOf st' x).length
      · rw [if_pos hC]
        have hg : bnd st rank x ≤ g := by omega
        have hbulk : st'.map (fun c =>
              if (childrenOf st' x).any (fun child => child.id == c.id) then
                { c with status := s }
              else c)
            = st'.map (fun c =>
              if c.id ∈ (childrenOf st x).map Category.id then { c with status := s } else c) := by
          apply List.map_congr_left
          intro c _
          have hanyiff : ((childrenOf st' x).any (fun child => child.id == c.id) = true)
              ↔ c.id ∈ (childrenOf st x).map Category.id := by
            rw [← hccid]
            rw [List.any_eq_true]
            constructor
            · rintro ⟨a, ha, hab⟩
              exact List.mem_map.mpr ⟨a, ha, by simpa using hab⟩
            · rintro h
              obtain ⟨a, ha, hab⟩ := List.mem_map.mp h
              exact ⟨a, ha, by simpa using hab⟩
          by_cases h1 : c.id ∈ (childrenOf st x).map Category.id
          · rw [if_pos (hanyiff.mpr h1), if_pos h1]
          · rw [if_neg (fun hh => h1 (hanyiff.mp hh)), if_neg h1]
        rw [hbulk]
        have hfold : ∀ (C : List Category),
            (∀ i ∈ C.map Category.id, bnd st rank i < bnd st rank x) →
            ∀ (acc : List Nat),
            C.foldl (fun s' child => updateDescendantStatus g child.id s s')
              (st'.map (fun c => if c.id ∈ acc then { c with status := s } else c))
              = st'.map (fun c =>
                  if c.id ∈ acc ++ C.flatMap (fun child => CategoryUtils.descIds st child.id)
                  then { c with status := s } else c) := by
          intro C
          induction C with
          | nil =>
            intro _ acc
            simp
          | cons ch C ihC =>
            intro hCb acc
            rw [List.foldl_cons]
            have hbch : bnd st rank ch.id < bnd st rank x :=
              hCb ch.id (List.mem_map_of_mem Category.id (List.mem_cons_self _ _))
            have hshacc : st.map shape
                = (st'.map (fun c => if c.id ∈ acc then { c with status := s } else c)).map shape := by
              rw [List.map_map, hsh]
              symm
              apply List.map_congr_left
              intro c _
              simp only [Function.comp_apply]
              split <;> rfl
            have hstep := ih ch.id g
              (st'.map (fun c => if c.id ∈ acc then { c with status := s } else c))
              (by omega) (by omega) hshacc
            rw [hstep, List.map_map]
            have hcomp : st'.map
                ((fun c => if c.id ∈ CategoryUtils.descIds st ch.id then { c with status := s } else c)
                  ∘ (fun c => if c.id ∈ acc then { c with status := s } else c))
                = st'.map (fun c =>
                    if c.id ∈ acc ++ CategoryUtils.descIds st ch.id then { c with status := s } else c) := by
              apply List.map_congr_left
              intro c _
              simp only [Function.comp_apply]
              by_cases h1 : c.id ∈ acc <;> by_cases h2 : c.id ∈ CategoryUtils.descIds st ch.id <;>
                simp [h1, h2, List.mem_append]
            rw [hcomp]
            rw [ihC (fun i hi => hCb i (by rw [List.map_cons]; exact List.mem_cons_of_mem _ hi))
              (acc ++ CategoryUtils.descIds st ch.id)]
            rw [List.flatMap_cons, ← List.append_assoc]
        have hbounds : ∀ i ∈ (childrenOf st' x).map Category.id,
            bnd st rank i < bnd st rank x := by
          rw [hccid]
          intro i hi
          obtain ⟨c, hc, hci⟩ := List.mem_map.mp hi
          exact hci ▸ bnd_child_lt' hr hc
        rw [hfold (childrenOf st' x) hbounds ((childrenOf st x).map Category.id)]
        have hfm : ∀ (m : List Category),
            m.flatMap (fun child => CategoryUtils.descIds st child.id)
              = (m.map Category.id).flatMap (fun i => CategoryUtils.descIds st i) := by
          intro m
          induction m with
          | nil => rfl
          | cons a t iht => simp only [List.flatMap_cons, List.map_cons, iht]
        rw [hfm (childrenOf st' x), hccid, ← hfm (childrenOf st x)]
        have hfun : ∀ ch ∈ childrenOf st x,
            (ch.id :: CategoryUtils.getAllDescendantIds st.length ch.id st)
              = (ch.id :: CategoryUtils.descIds st ch.id) := by
          intro ch hch
          have hb := bnd_child_lt' hr hch
          have hl := bnd_le_length st rank x
          rw [CategoryUtils.getAllDescendantIds_eq_descIds hr
            (show bnd st rank ch.id < st.length by omega)]
        have hmem : ∀ k : Nat,
            k ∈ (childrenOf st x).map Category.id
                ++ (childrenOf st x).flatMap (fun child => CategoryUtils.descIds st child.id)
              ↔ k ∈ CategoryUtils.descIds st x := by
          intro k
          rw [show CategoryUtils.descIds st x
              = (childrenOf st x).flatMap
                  (fun child => child.id :: CategoryUtils.getAllDescendantIds st.length child.id st)
            from rfl]
          rw [flatMap_congr hfun]
          simp only [List.mem_append, List.mem_flatMap, List.mem_map, List.mem_cons]
          constructor
          · rintro (⟨a, ha, hak⟩ | ⟨a, ha, hak⟩)
            · exact ⟨a, ha, Or.inl hak.symm⟩
            · exact ⟨a, ha, Or.inr hak⟩
          · rintro ⟨a, ha, hak | hak⟩
            · exact Or.inl ⟨a, ha, hak.symm⟩
            · exact Or.inr ⟨a, ha, hak⟩
        apply List.map_congr_left
        intro c _
        by_cases h1 : c.id ∈ CategoryUtils.descIds st x
        · rw [if_pos ((hmem c.id).mpr h1), if_pos h1]
        · rw [if_neg (fun hh => h1 ((hmem c.id).mp hh)), if_neg h1]
      · rw [if_neg hC]
        have hCx : childrenOf st x = [] := by
          have hlen : (childrenOf st x).length = (childrenOf st' x).length := by
            have hq := congrArg List.length hccsh
            simpa using hq
          have hz : (childrenOf st x).length = 0 := by omega
          exact List.length_eq_zero.mp hz
        have hdesc : CategoryUtils.descIds st x = [] := by
          rw [show CategoryUtils.descIds st x
              = (childrenOf st x).flatMap
                  (fun child => child.id :: CategoryUtils.getAllDescendantIds st.length child.id st)
            from rfl]
          rw [hCx]
          rfl
        rw [hdesc]
        symm
        have hid' : ∀ c ∈ st',
            (if c.id ∈ ([] : List Nat) then { c with status := s } else c) = c :=
          fun c _ => by simp
        rw [List.map_congr_left hid']
        simp

end CategoryController

namespace CategoryController

theorem cascade_char {st : List Category} {rank : Nat → Nat} (hr : Acyclic st rank)
    (s : Status) (x fuel : Nat) (hf : st.length < fuel) :
    updateDescendantStatus fuel x s st
      = st.map (fun c =>
          if c.id ∈ CategoryUtils.descIds st x then { c with status := s } else c) := by
  have hbl := bnd_le_length st rank x
  exact cascade_char_gen hr s (bnd st rank x + 1) x fuel st (Nat.lt_succ_self _) (by omega) rfl

end CategoryController

theorem filter_id_map_ite (l : List Category) (A : List Nat) (s : Status) (x : Nat)
    (hx : x ∉ A) :
    (l.map (fun c => if c.id ∈ A then { c with status := s } else c)).filter
        (fun c => c.id == x)
      = l.filter (fun c => c.id == x) := by
  induction l with
  | nil => rfl
  | cons c t iht =>
    rw [List.map_cons, List.filter_cons, List.filter_cons]
    by_cases hcx : c.id = x
    · have hcA : ¬ c.id ∈ A := by
        rw [hcx]
        exact hx
      rw [if_neg hcA]
      simp [hcx, iht]
    · have hfc : ((if c.id ∈ A then { c with status := s } else c).id == x) = false := by
        by_cases hA : c.id ∈ A <;> simp [hA, hcx]
      simp [hfc, hcx, iht]

/-- Claim C3: on a store with an acyclic parent graph, once the status
cascade on id `x` completes (any fuel beyond the store size), every record
whose id is a transitive descendant of `x` carries the given status, while
the records with the triggering id `x` itself are bit-for-bit those of the
input store — the routine never writes the trigger, which is left to the
caller. -/
theorem updateDescendantStatus_cascade_completeness (st : List Category) (rank : Nat → Nat)
    (x : Nat) (s : Status) (fuel : Nat) (hr : Acyclic st rank) (hf : st.length < fuel) :
    (∀ d ∈ CategoryController.updateDescendantStatus fuel x s st,
        d.id ∈ CategoryUtils.descIds st x → d.status = s)
    ∧ (CategoryController.updateDescendantStatus fuel x s st).filter (fun c => c.id == x)
        = st.filter (fun c => c.id == x) := by
  rw [CategoryController.cascade_char hr s x fuel hf]
  constructor
  · intro d hd hdid
    obtain ⟨c, hc, hcd⟩ := List.mem_map.mp hd
    by_cases h1 : c.id ∈ CategoryUtils.descIds st x
    · rw [if_pos h1] at hcd
      rw [← hcd]
    · rw [if_neg h1] at hcd
      rw [← hcd] at hdid
      exact absurd hdid h1
  · exact filter_id_map_ite st (CategoryUtils.descIds st x) s x
      (CategoryUtils.self_not_mem_desc hr _ x)

/-- Claim C3, witness: cascading `inactive` from the root of the concrete
chain 1 → 2 → 3 turns the records 2 and 3 inactive and leaves record 1
exactly as stored. -/
theorem updateDescendantStatus_cascade_completeness_witness :
    (∀ d ∈ CategoryController.updateDescendantStatus 4 1 Status.inactive
        [⟨1, "root", none, Status.active⟩, ⟨2, "mid", some 1, Status.active⟩,
         ⟨3, "leaf", some 2, Status.active⟩],
        d.id ∈ CategoryUtils.descIds
          [⟨1, "root", none, Status.active⟩, ⟨2, "mid", some 1, Status.active⟩,
           ⟨3, "leaf", some 2, Status.active⟩] 1 → d.status = Status.inactive)
    ∧ (CategoryController.updateDescendantStatus 4 1 Status.inactive
        [⟨1, "root", none, Status.active⟩, ⟨2, "mid", some 1, Status.active⟩,
         ⟨3, "leaf", some 2, Status.active⟩]).filter (fun c => c.id == 1)
        = [⟨1, "root", none, Status.active⟩, ⟨2, "mid", some 1, Status.active⟩,
           ⟨3, "leaf", some 2, Status.active⟩].filter (fun c => c.id == 1) :=
  updateDescendantStatus_cascade_completeness _ (fun n => n) 1 Status.inactive 4
    (by decide) (by decide)

/-- Claim C5: the cascade to `inactive` is frame-exact — the resulting
store is the input store with the status of precisely the transitive
descendants of the triggering id set to `inactive`, so every record whose
id is not a transitive descendant (ancestors, siblings and their subtrees,
unrelated roots) survives with all its fields unchanged. -/
theorem updateDescendantStatus_cascade_locality (st : List Category) (rank : Nat → Nat)
    (x fuel : Nat) (hr : Acyclic st rank) (hf : st.length < fuel) :
    (CategoryController.updateDescendantStatus fuel x Status.inactive st
        = st.map (fun c =>
            if c.id ∈ CategoryUtils.descIds st x then { c with status := Status.inactive }
            else c))
    ∧ ∀ c ∈ st, c.id ∉ CategoryUtils.descIds st x →
        c ∈ CategoryController.updateDescendantStatus fuel x Status.inactive st := by
  have hchar := CategoryController.cascade_char hr Status.inactive x fuel hf
  refine ⟨hchar, ?_⟩
  intro c hc hcn
  rw [hchar]
  exact List.mem_map.mpr ⟨c, hc, by rw [if_neg hcn]⟩

/-- Claim C5, witness: cascading below id 2 of a concrete store leaves the
root 1 and the sibling subtree 4 → 5 untouched. -/
theorem updateDescendantStatus_cascade_locality_witness :
    (CategoryController.updateDescendantStatus 6 2 Status.inactive
        [⟨1, "root", none, Status.active⟩, ⟨2, "a", some 1, Status.active⟩,
         ⟨3, "a1", some 2, Status.active⟩, ⟨4, "b", some 1, Status.active⟩,
         ⟨5, "b1", some 4, Status.active⟩]
        = [⟨1, "root", none, Status.active⟩, ⟨2, "a", some 1, Status.active⟩,
           ⟨3, "a1", some 2, Status.active⟩, ⟨4, "b", some 1, Status.active⟩,
           ⟨5, "b1", some 4, Status.active⟩].map (fun c =>
            if c.id ∈ CategoryUtils.descIds
                [⟨1, "root", none, Status.active⟩, ⟨2, "a", some 1, Status.active⟩,
                 ⟨3, "a1", some 2, Status.active⟩, ⟨4, "b", some 1, Status.active⟩,
                 ⟨5, "b1", some 4, Status.active⟩] 2 then
              { c with status := Status.inactive }
            else c))
    ∧ ∀ c ∈ [⟨1, "root", none, Status.active⟩, ⟨2, "a", some 1, Status.active⟩,
         ⟨3, "a1", some 2, Status.active⟩, ⟨4, "b", some 1, Status.active⟩,
         ⟨5, "b1", some 4, Status.active⟩],
        c.id ∉ CategoryUtils.descIds
          [⟨1, "root", none, Status.active⟩, ⟨2, "a", some 1, Status.active⟩,
           ⟨3, "a1", some 2, Status.active⟩, ⟨4, "b", some 1, Status.active⟩,
           ⟨5, "b1", some 4, Status.active⟩] 2 →
        c ∈ CategoryController.updateDescendantStatus 6 2 Status.inactive
          [⟨1, "root", none, Status.active⟩, ⟨2, "a", some 1, Status.active⟩,
           ⟨3, "a1", some 2, Status.active⟩, ⟨4, "b", some 1, Status.active⟩,
           ⟨5, "b1", some 4, Status.active⟩] :=
  updateDescendantStatus_cascade_locality _ (fun n => n) 2 6 (by decide) (by decide)

/-- Claim C9: the descendant cascade is invoked only when the update sets
status to `inactive` on a category whose current status differs: an update
setting `active`, or setting `inactive` on an already-inactive category,
takes the non-cascading branch, so every record other than the updated one
survives in the store unchanged. -/
theorem updateCategory_no_cascade (fuel : Nat) (st : List Category) (id : Nat)
    (name? : Option String) (category : Category)
    (hfind : st.find? (fun c => c.id == id) = some category) :
    (∀ c ∈ st, c.id ≠ id →
        c ∈ (CategoryController.updateCategory fuel id name? (some Status.active) st).2)
    ∧ (category.status = Status.inactive →
        ∀ c ∈ st, c.id ≠ id →
          c ∈ (CategoryController.updateCategory fuel id name? (some Status.inactive) st).2) := by
  constructor
  · intro c hc hne
    simp only [CategoryController.updateCategory, hfind]
    rw [if_neg (fun h => Status.noConfusion h.2)]
    exact List.mem_map.mpr ⟨c, hc, by simp [hne]⟩
  · intro hst c hc hne
    simp only [CategoryController.updateCategory, hfind]
    rw [if_neg (fun h => h.1 hst.symm)]
    exact List.mem_map.mpr ⟨c, hc, by simp [hne]⟩

/-- Claim C9, witness: updating id 1 to `active`, and updating the
already-inactive id 1 to `inactive`, both leave the concrete child record
2 in the store untouched. -/
theorem updateCategory_no_cascade_witness :
    (∀ c ∈ [⟨1, "r", none, Status.inactive⟩, ⟨2, "c", some 1, Status.active⟩],
        Category.id c ≠ 1 →
        c ∈ (CategoryController.updateCategory 4 1 none (some Status.active)
          [⟨1, "r", none, Status.inactive⟩, ⟨2, "c", some 1, Status.active⟩]).2)
    ∧ (Category.status ⟨1, "r", none, Status.inactive⟩ = Status.inactive →
        ∀ c ∈ [⟨1, "r", none, Status.inactive⟩, ⟨2, "c", some 1, Status.active⟩],
          Category.id c ≠ 1 →
          c ∈ (CategoryController.updateCategory 4 1 none (some Status.inactive)
            [⟨1, "r", none, Status.inactive⟩, ⟨2, "c", some 1, Status.active⟩]).2) :=
  updateCategory_no_cascade 4 _ 1 none ⟨1, "r", none, Status.inactive⟩ (by decide)

/-- Claim C8: when the supplied parent id resolves to no stored category,
the create handler sends a 400 response but, lacking a `return` in the
validation branch, still constructs the category with the dangling parent
reference and saves it to the store. -/
theorem createCategory_dangling_save (st : List Category) (newId : Nat) (name : String)
    (p : Nat) (status? : Option Status) (hp : ∀ c ∈ st, c.id ≠ p) :
    400 ∈ (CategoryController.createCategory newId name (some p) status? st).1
    ∧ ∃ c ∈ (CategoryController.createCategory newId name (some p) status? st).2,
        c.id = newId ∧ c.parent = some p := by
  have hfind : (st.find? (fun c => c.id == p)) = none :=
    List.find?_eq_none.mpr (fun c hc => by simp [hp c hc])
  simp only [CategoryController.createCategory, hfind]
  constructor
  · simp
  · refine ⟨⟨newId, name, some p, status?.getD Status.active⟩, ?_, rfl, rfl⟩
    simp

/-- Claim C8, witness: with only id 1 stored, creating a category under
the missing parent 7 replies 400 and still saves the record with
parent 7. -/
theorem createCategory_dangling_save_witness :
    400 ∈ (CategoryController.createCategory 9 "X" (some 7) none
        [⟨1, "r", none, Status.active⟩]).1
    ∧ ∃ c ∈ (CategoryController.createCategory 9 "X" (some 7) none
        [⟨1, "r", none, Status.active⟩]).2,
        Category.id c = 9 ∧ Category.parent c = some 7 :=
  createCategory_dangling_save _ 9 "X" 7 none (by decide)

/-- Claim C4: on a store with distinct ids and an acyclic parent graph,
deleting an existing category (1) answers 200; (2) removes the record with
that id; (3) leaves no remaining record referencing the deleted id as
parent; (4) rewrites every former direct child to reference the deleted
category's former parent (absent parent included, making the children
roots) while keeping its other fields; and (5) keeps every record that was
neither the deleted one nor a direct child entirely unchanged. -/
theorem deleteCategory_reparent (st : List Category) (rank : Nat → Nat) (id : Nat)
    (category : Category) (hnd : (keys st).Nodup) (hr : Acyclic st rank)
    (hfind : st.find? (fun c => c.id == id) = some category) :
    (CategoryController.deleteCategory id st).1 = 200
    ∧ (∀ d ∈ (CategoryController.deleteCategory id st).2, d.id ≠ id)
    ∧ (∀ d ∈ (CategoryController.deleteCategory id st).2, d.parent ≠ some id)
    ∧ (∀ c ∈ st, c.parent = some id →
        ∃ d ∈ (CategoryController.deleteCategory id st).2,
          d.id = c.id ∧ d.parent = category.parent ∧ d.name = c.name ∧ d.status = c.status)
    ∧ (∀ c ∈ st, c.id ≠ id → c.parent ≠ some id →
        c ∈ (CategoryController.deleteCategory id st).2) := by
  classical
  have hcatmem : category ∈ st := List.mem_of_find?_eq_some hfind
  have hcatid : category.id = id := by
    have hq := List.find?_some hfind
    simpa using hq
  have hnoself : ∀ c ∈ st, c.parent = some id → c.id ≠ id := by
    intro c hc hp he
    have h1 := acyclic_parent_rank hr hc hp
    rw [he] at h1
    omega
  have hcatpar : category.parent ≠ some id := by
    intro hp
    exact hnoself category hcatmem hp hcatid
  -- the reparenting step in unconditional pointwise form
  have hst₁ : (if 0 < (childrenOf st id).length then
        st.map (fun c =>
          if (childrenOf st id).any (fun sc => sc.id == c.id) then
            { c with parent := category.parent }
          else c)
      else st)
      = st.map (fun c =>
          if c.parent = some id then { c with parent := category.parent } else c) := by
    by_cases hlen : 0 < (childrenOf st id).length
    · rw [if_pos hlen]
      apply List.map_congr_left
      intro c hc
      have hiff : ((childrenOf st id).any (fun sc => sc.id == c.id) = true)
          ↔ c.parent = some id := by
        constructor
        · intro h
          rw [List.any_eq_true] at h
          obtain ⟨sc, hsc, hb⟩ := h
          have hsceq : sc = c :=
            nodup_map_inj hnd (mem_childrenOf.mp hsc).1 hc (by simpa using hb)
          exact hsceq ▸ (mem_childrenOf.mp hsc).2
        · intro h
          rw [List.any_eq_true]
          exact ⟨c, mem_childrenOf.mpr ⟨hc, h⟩, by simp⟩
      by_cases hp : c.parent = some id
      · rw [if_pos (hiff.mpr hp), if_pos hp]
      · rw [if_neg (fun hh => hp (hiff.mp hh)), if_neg hp]
    · rw [if_neg hlen]
      symm
      have hnone : ∀ c ∈ st,
          (if c.parent = some id then { c with parent := category.parent } else c) = c := by
        intro c hc
        rw [if_neg]
        intro hp
        have hmem : c ∈ childrenOf st id := mem_childrenOf.mpr ⟨hc, hp⟩
        exact hlen (List.length_pos.mpr (List.ne_nil_of_mem hmem))
      rw [List.map_congr_left hnone]
      simp
  have hout : (CategoryController.deleteCategory id st).2
      = (st.map (fun c =>
          if c.parent = some id then { c with parent := category.parent } else c)).eraseP
          (fun c => c.id == id) := by
    simp only [CategoryController.deleteCategory, hfind]
    rw [hst₁]
  set f : Category → Category :=
    fun c => if c.parent = some id then { c with parent := category.parent } else c with hf
  have hfid : ∀ c, (f c).id = c.id := by
    intro c
    simp only [hf]
    split <;> rfl
  have hfcat : f category = category := by
    simp only [hf]
    rw [if_neg hcatpar]
  have hfmem : category ∈ st.map f := hfcat ▸ List.mem_map_of_mem f hcatmem
  have hfprop : (category.id == id) = true := by simp [hcatid]
  obtain ⟨a, l₁, l₂, hl₁, hpa, hdec, herase⟩ :=
    @List.exists_of_eraseP Category (fun c => c.id == id) (st.map f) category hfmem hfprop
  have haid : a.id = id := by simpa using hpa
  have hidsnodup : ((st.map f).map Category.id).Nodup := by
    rw [List.map_map]
    have he : (st.map (Category.id ∘ f)) = st.map Category.id :=
      List.map_congr_left (fun c _ => hfid c)
    rw [he]
    exact hnd
  have hmemout : ∀ d, d ∈ l₁ ++ l₂ → d ∈ st.map f := by
    intro d hd
    rw [hdec]
    rcases List.mem_append.mp hd with h | h
    · exact List.mem_append_left _ h
    · exact List.mem_append_right _ (List.mem_cons_of_mem _ h)
  have hpar_out : ∀ d ∈ st.map f, d.parent ≠ some id := by
    intro d hd
    obtain ⟨c, hc, hcd⟩ := List.mem_map.mp hd
    rw [← hcd]
    simp only [hf]
    by_cases hp : c.parent = some id
    · rw [if_pos hp]
      exact hcatpar
    · rw [if_neg hp]
      exact hp
  have hin_out : ∀ d ∈ st.map f, d.id ≠ id → d ∈ l₁ ++ l₂ := by
    intro d hd hdne
    rw [hdec] at hd
    rcases List.mem_append.mp hd with h | h
    · exact List.mem_append_left _ h
    · rcases List.mem_cons.mp h with h | h
      · exact absurd (h ▸ haid) hdne
      · exact List.mem_append_right _ h
  refine ⟨?_, ?_, ?_, ?_, ?_⟩
  · simp only [CategoryController.deleteCategory, hfind]
  · intro d hd
    rw [hout, herase] at hd
    rcases List.mem_append.mp hd with h | h
    · intro he
      exact hl₁ d h (by simp [he])
    · -- uniqueness of the id among the mapped records
      intro he
      have hsplit : (st.map f).map Category.id
          = l₁.map Category.id ++ a.id :: l₂.map Category.id := by
        rw [hdec]
        simp
      rw [hsplit] at hidsnodup
      have hnd₂ := (List.nodup_append.mp hidsnodup).2.1
      rw [List.nodup_cons] at hnd₂
      exact hnd₂.1 (haid ▸ he ▸ List.mem_map_of_mem Category.id h)
  · intro d hd
    rw [hout, herase] at hd
    exact hpar_out d (hmemout d hd)
  · intro c hc hp
    have hcne : c.id ≠ id := hnoself c hc hp
    have hfc : f c = { c with parent := category.parent } := by
      simp only [hf]
      rw [if_pos hp]
    have hdmem : f c ∈ st.map f := List.mem_map_of_mem f hc
    have hdid : (f c).id = c.id := hfid c
    refine ⟨f c, ?_, hdid, ?_, ?_, ?_⟩
    · rw [hout, herase]
      exact hin_out (f c) hdmem (by rw [hdid]; exact hcne)
    · rw [hfc]
    · rw [hfc]
    · rw [hfc]
  · intro c hc hcne hcp
    have hfc : f c = c := by
      simp only [hf]
      rw [if_neg hcp]
    rw [hout, herase]
    exact hin_out c (hfc ▸ List.mem_map_of_mem f hc) hcne

/-- Claim C4, witness: deleting the mid category 2 of the concrete store
grandparent 1 → parent 2 → children 3, 4 answers 200, removes record 2,
reparents 3 and 4 to 1 and leaves record 1 unchanged. -/
theorem deleteCategory_reparent_witness :
    (CategoryController.deleteCategory 2
        [⟨1, "g", none, Status.active⟩, ⟨2, "p", some 1, Status.active⟩,
         ⟨3, "c1", some 2, Status.active⟩, ⟨4, "c2", some 2, Status.active⟩]).1 = 200
    ∧ (∀ d ∈ (CategoryController.deleteCategory 2
        [⟨1, "g", none, Status.active⟩, ⟨2, "p", some 1, Status.active⟩,
         ⟨3, "c1", some 2, Status.active⟩, ⟨4, "c2", some 2, Status.active⟩]).2,
        Category.id d ≠ 2)
    ∧ (∀ d ∈ (CategoryController.deleteCategory 2
        [⟨1, "g", none, Status.active⟩, ⟨2, "p", some 1, Status.active⟩,
         ⟨3, "c1", some 2, Status.active⟩, ⟨4, "c2", some 2, Status.active⟩]).2,
        Category.parent d ≠ some 2)
    ∧ (∀ c ∈ [⟨1, "g", none, Status.active⟩, ⟨2, "p", some 1, Status.active⟩,
         ⟨3, "c1", some 2, Status.active⟩, ⟨4, "c2", some 2, Status.active⟩],
        Category.parent c = some 2 →
        ∃ d ∈ (CategoryController.deleteCategory 2
          [⟨1, "g", none, Status.active⟩, ⟨2, "p", some 1, Status.active⟩,
           ⟨3, "c1", some 2, Status.active⟩, ⟨4, "c2", some 2, Status.active⟩]).2,
          Category.id d = Category.id c
            ∧ Category.parent d = Category.parent (⟨2, "p", some 1, Status.active⟩ : Category)
            ∧ Category.name d = Category.name c ∧ Category.status d = Category.status c)
    ∧ (∀ c ∈ [⟨1, "g", none, Status.active⟩, ⟨2, "p", some 1, Status.active⟩,
         ⟨3, "c1", some 2, Status.active⟩, ⟨4, "c2", some 2, Status.active⟩],
        Category.id c ≠ 2 → Category.parent c ≠ some 2 →
        c ∈ (CategoryController.deleteCategory 2
          [⟨1, "g", none, Status.active⟩, ⟨2, "p", some 1, Status.active⟩,
           ⟨3, "c1", some 2, Status.active⟩, ⟨4, "c2", some 2, Status.active⟩]).2) :=
  deleteCategory_reparent _ (fun n => n) 2 ⟨2, "p", some 1, Status.active⟩
    (by decide) (by decide) (by decide)

/-! ### Termination at the subtree depth: both recursions stabilize once
the fuel reaches the depth of the subtree below the queried id -/

theorem foldl_congr_fn {α β : Type} :
    ∀ (l : List α) (b : β) (f g : β → α → β), (∀ a ∈ l, ∀ m, f m a = g m a) →
      l.foldl f b = l.foldl g b := by
  intro l
  induction l with
  | nil => intro b f g h; rfl
  | cons a t ih =>
    intro b f g h
    rw [List.foldl_cons, List.foldl_cons, h a (List.mem_cons_self _ _) b]
    exact ih _ f g (fun a ha m => h a (List.mem_cons_of_mem _ ha) m)

theorem foldl_max_init_le {α : Type} (f : α → Nat) :
    ∀ (l : List α) (b : Nat), b ≤ l.foldl (fun m y => max m (f y)) b := by
  intro l
  induction l with
  | nil => intro b; exact Nat.le_refl b
  | cons a t ih =>
    intro b
    rw [List.foldl_cons]
    exact Nat.le_trans (Nat.le_max_left b (f a)) (ih (max b (f a)))

theorem le_foldl_max {α : Type} (f : α → Nat) :
    ∀ (l : List α) (b : Nat) (a : α), a ∈ l → f a ≤ l.foldl (fun m y => max m (f y)) b := by
  intro l
  induction l with
  | nil => intro b a ha; cases ha
  | cons c t ih =>
    intro b a ha
    rw [List.foldl_cons]
    rcases List.mem_cons.mp ha with h | h
    · subst h
      exact Nat.le_trans (Nat.le_max_right b (f a)) (foldl_max_init_le f t (max b (f a)))
    · exact ih _ a h

namespace CategoryUtils

theorem subtreeDepth_stab {categories : List Category} {rank : Nat → Nat}
    (hr : Acyclic categories rank) :
    ∀ (n : Nat) {x fuel₁ fuel₂ : Nat}, bnd categories rank x < n →
      bnd categories rank x < fuel₁ → bnd categories rank x < fuel₂ →
      subtreeDepth categories fuel₁ x = subtreeDepth categories fuel₂ x := by
  intro n
  induction n with
  | zero => intro x f1 f2 h; omega
  | succ n ih =>
    intro x fuel₁ fuel₂ hn h₁ h₂
    cases fuel₁ with
    | zero => omega
    | succ g₁ =>
      cases fuel₂ with
      | zero => omega
      | succ g₂ =>
        simp only [subtreeDepth]
        by_cases hE : (childrenOf categories x).isEmpty
        · rw [if_pos hE, if_pos hE]
        · rw [if_neg hE, if_neg hE]
          congr 1
          apply foldl_congr_fn
          intro c hc m
          have hb := bnd_child_lt' hr hc
          rw [@ih c.id g₁ g₂ (by omega) (by omega) (by omega)]

theorem depthBelow_child_lt {categories : List Category} {rank : Nat → Nat}
    (hr : Acyclic categories rank) {c : Category} {x : Nat}
    (hc : c ∈ childrenOf categories x) :
    depthBelow categories c.id < depthBelow categories x := by
  have hb := bnd_child_lt' hr hc
  have hl := bnd_le_length categories rank x
  have hne : ¬ (childrenOf categories x).isEmpty := by
    rw [List.isEmpty_iff]
    intro he
    rw [he] at hc
    cases hc
  have hunfold : depthBelow categories x
      = 1 + (childrenOf categories x).foldl
          (fun m c => max m (subtreeDepth categories categories.length c.id)) 0 := by
    show subtreeDepth categories (categories.length + 1) x = _
    simp only [subtreeDepth]
    rw [if_neg hne]
  have hstab : subtreeDepth categories categories.length c.id = depthBelow categories c.id :=
    subtreeDepth_stab hr (bnd categories rank c.id + 1) (Nat.lt_succ_self _)
      (by omega) (by omega)
  have hle := le_foldl_max (fun c => subtreeDepth categories categories.length c.id)
    (childrenOf categories x) 0 c hc
  simp only [] at hle
  rw [hstab] at hle
  omega

theorem desc_empty_children {categories : List Category} {x : Nat}
    (h : childrenOf categories x = []) (fuel : Nat) :
    getAllDescendantIds fuel x categories = [] := by
  cases fuel with
  | zero => rfl
  | succ g => simp only [getAllDescendantIds, h, List.flatMap_nil]

theorem one_le_depthBelow {categories : List Category} {x : Nat}
    (h : ¬ (childrenOf categories x).isEmpty) : 1 ≤ depthBelow categories x := by
  show 1 ≤ subtreeDepth categories (categories.length + 1) x
  simp only [subtreeDepth]
  rw [if_neg h]
  omega

theorem getAllDescendantIds_depth_stab {categories : List Category} {rank : Nat → Nat}
    (hr : Acyclic categories rank) :
    ∀ (n : Nat) {x fuel₁ fuel₂ : Nat}, bnd categories rank x < n →
      depthBelow categories x ≤ fuel₁ → depthBelow categories x ≤ fuel₂ →
      getAllDescendantIds fuel₁ x categories = getAllDescendantIds fuel₂ x categories := by
  intro n
  induction n with
  | zero => intro x f1 f2 h; omega
  | succ n ih =>
    intro x fuel₁ fuel₂ hn h₁ h₂
    by_cases hE : (childrenOf categories x).isEmpty
    · have hnil : childrenOf categories x = [] := List.isEmpty_iff.mp hE
      rw [desc_empty_children hnil, desc_empty_children hnil]
    · have h1d := one_le_depthBelow hE
      cases fuel₁ with
      | zero => omega
      | succ g₁ =>
        cases fuel₂ with
        | zero => omega
        | succ g₂ =>
          simp only [getAllDescendantIds]
          apply flatMap_congr
          intro c hc
          have hb := bnd_child_lt' hr hc
          have hd := depthBelow_child_lt hr hc
          exact congrArg (c.id :: ·) (@ih c.id g₁ g₂ (by omega) (by omega) (by omega))

end CategoryUtils

namespace CategoryController

theorem updateDescendantStatus_empty {st' : List Category} {x : Nat} (s : Status)
    (h : ¬ 0 < (childrenOf st' x).length) (fuel : Nat) :
    updateDescendantStatus fuel x s st' = st' := by
  cases fuel with
  | zero => rfl
  | succ g =>
    simp only [updateDescendantStatus]
    rw [if_neg h]

theorem updateDescendantStatus_depth_stab {st : List Category} {rank : Nat → Nat}
    (hr : Acyclic st rank) (s : Status) :
    ∀ (n : Nat), ∀ (x fuel₁ fuel₂ : Nat) (st' : List Category),
      bnd st rank x < n → st.map shape = st'.map shape →
      CategoryUtils.depthBelow st x ≤ fuel₁ → CategoryUtils.depthBelow st x ≤ fuel₂ →
      updateDescendantStatus fuel₁ x s st' = updateDescendantStatus fuel₂ x s st' := by
  intro n
  induction n with
  | zero => intro x f1 f2 st' h; omega
  | succ n ih =>
    intro x fuel₁ fuel₂ st' hn hsh h₁ h₂
    have hccsh := sameShape_filter_parent st st' hsh x
    have hccid : (childrenOf st' x).map Category.id = (childrenOf st x).map Category.id :=
      (map_id_of_map_shape hccsh).symm
    by_cases hC : 0 < (childrenOf st' x).length
    · have hlen : (childrenOf st x).length = (childrenOf st' x).length := by
        have hq := congrArg List.length hccsh
        simpa using hq
      have hne : ¬ (childrenOf st x).isEmpty := by
        rw [List.isEmpty_iff]
        intro he
        rw [he] at hlen
        simp at hlen
        omega
      have h1d := CategoryUtils.one_le_depthBelow hne
      cases fuel₁ with
      | zero => omega
      | succ g₁ =>
        cases fuel₂ with
        | zero => omega
        | succ g₂ =>
          simp only [updateDescendantStatus]
          rw [if_pos hC, if_pos hC]
          have hchbound : ∀ c ∈ childrenOf st' x,
              bnd st rank c.id < bnd st rank x
                ∧ CategoryUtils.depthBelow st c.id < CategoryUtils.depthBelow st x := by
            intro c hc
            have hcid : c.id ∈ (childrenOf st x).map Category.id := by
              rw [← hccid]
              exact List.mem_map_of_mem Category.id hc
            obtain ⟨c₀, hc₀, hc₀id⟩ := List.mem_map.mp hcid
            constructor
            · rw [← hc₀id]
              exact bnd_child_lt' hr hc₀
            · rw [← hc₀id]
              exact CategoryUtils.depthBelow_child_lt hr hc₀
          have hfold : ∀ (C : List Category),
              (∀ c ∈ C, bnd st rank c.id < bnd st rank x
                ∧ CategoryUtils.depthBelow st c.id < CategoryUtils.depthBelow st x) →
              ∀ (st₀ : List Category), st.map shape = st₀.map shape →
              C.foldl (fun s' child => updateDescendantStatus g₁ child.id s s') st₀
                = C.foldl (fun s' child => updateDescendantStatus g₂ child.id s s') st₀ := by
            intro C
            induction C with
            | nil => intro _ st₀ _; rfl
            | cons ch C ihC =>
              intro hCb st₀ hsh₀
              rw [List.foldl_cons, List.foldl_cons]
              have hb := hCb ch (List.mem_cons_self _ _)
              have hstep : updateDescendantStatus g₁ ch.id s st₀
                  = updateDescendantStatus g₂ ch.id s st₀ :=
                ih ch.id g₁ g₂ st₀ (by omega) hsh₀ (by omega) (by omega)
              rw [hstep]
              apply ihC (fun c hc => hCb c (List.mem_cons_of_mem _ hc))
              rw [cascade_shape]
              exact hsh₀
          apply hfold (childrenOf st' x) hchbound
          rw [List.map_map, hsh]
          symm
          apply List.map_congr_left
          intro c _
          simp only [Function.comp_apply]
          split <;> rfl
    · rw [updateDescendantStatus_empty s hC fuel₁, updateDescendantStatus_empty s hC fuel₂]

end CategoryController

/-- Claim C6: on a flat category set with an acyclic parent graph both
unbounded recursions are total, and fuel equal to the depth of the subtree
below the queried id already computes the final answer: any recursion
bound at least that depth yields the same descendant listing and the same
cascaded store as the bound equal to the subtree depth itself.  Acyclicity
is the precondition — it is what the rank hypothesis expresses — and the
recursion depth needed is exactly the subtree depth. -/
theorem recursion_depth_subtree_depth (st : List Category) (rank : Nat → Nat)
    (x : Nat) (s : Status) (fuel : Nat) (hr : Acyclic st rank)
    (hf : CategoryUtils.depthBelow st x ≤ fuel) :
    CategoryUtils.getAllDescendantIds fuel x st
      = CategoryUtils.getAllDescendantIds (CategoryUtils.depthBelow st x) x st
    ∧ CategoryController.updateDescendantStatus fuel x s st
      = CategoryController.updateDescendantStatus (CategoryUtils.depthBelow st x) x s st := by
  constructor
  · exact CategoryUtils.getAllDescendantIds_depth_stab hr (bnd st rank x + 1)
      (Nat.lt_succ_self _) hf (Nat.le_refl _)
  · exact CategoryController.updateDescendantStatus_depth_stab hr s (bnd st rank x + 1)
      x fuel (CategoryUtils.depthBelow st x) st (Nat.lt_succ_self _) rfl hf (Nat.le_refl _)

/-- Claim C6, witness: for the concrete chain 1 → 2 → 3 the subtree depth
below 1 is 2, and recursion bound 7 computes the same listing and the same
cascaded store as bound 2. -/
theorem recursion_depth_subtree_depth_witness :
    CategoryUtils.getAllDescendantIds 7 1
        [⟨1, "r", none, Status.active⟩, ⟨2, "m", some 1, Status.active⟩,
         ⟨3, "l", some 2, Status.active⟩]
      = CategoryUtils.getAllDescendantIds
          (CategoryUtils.depthBelow
            [⟨1, "r", none, Status.active⟩, ⟨2, "m", some 1, Status.active⟩,
             ⟨3, "l", some 2, Status.active⟩] 1) 1
          [⟨1, "r", none, Status.active⟩, ⟨2, "m", some 1, Status.active⟩,
           ⟨3, "l", some 2, Status.active⟩]
    ∧ CategoryController.updateDescendantStatus 7 1 Status.inactive
        [⟨1, "r", none, Status.active⟩, ⟨2, "m", some 1, Status.active⟩,
         ⟨3, "l", some 2, Status.active⟩]
      = CategoryController.updateDescendantStatus
          (CategoryUtils.depthBelow
            [⟨1, "r", none, Status.active⟩, ⟨2, "m", some 1, Status.active⟩,
             ⟨3, "l", some 2, Status.active⟩] 1) 1 Status.inactive
          [⟨1, "r", none, Status.active⟩, ⟨2, "m", some 1, Status.active⟩,
           ⟨3, "l", some 2, Status.active⟩] :=
  recursion_depth_subtree_depth _ (fun n => n) 1 Status.inactive 7 (by decide) (by decide)
